import Mathlib

/-!
Shallow embedding, in Lean 4, of the metadata-extraction and
branch-naming logic of the github-metadata-api service
(`src/metadataExtractor/helpers/metadata.js` and the metadata-updater
helper module), together with theorems checking the behaviour that the
documentation ascribes to it.

Modeling conventions:
* JS strings are Lean `String`s / `List Char`; JS `null` / `undefined`
  and absent object fields are `Option.none`.
* JS numbers appearing in this code are non-negative integers kept well
  inside the exactly-representable range, and are modeled as `Nat`.
* Functions that consume already-parsed external data (YAML parsed by
  `js-yaml`, BibTeX parsed by `bibtex-parser`) take the parsed value (or
  a parsing oracle) as an argument, since those parsers are external
  dependencies of the repository; a JS exception that the source throws
  and catches is modeled by the `Option` / branch structure documented
  at each definition.
* `content.normalize('NFKD')` is modeled as the identity: Unicode
  compatibility decomposition only rewrites compatibility characters,
  and the character sequences reasoned about here are kept in the
  unaffected range.
-/

namespace GhMeta

/-- A JS value flowing into `String(content)` in `extractBibTeXEntries`:
either an actual string or one of the absence markers (`null` /
`undefined`) returned by the content fetchers on a missing file. -/
inductive JSText where
  | str : String → JSText
  | null : JSText
  | undefined : JSText

/-- JS `String(x)` for the values of `JSText`. -/
def jsString : JSText → String
  | .str s => s
  | .null => "null"
  | .undefined => "undefined"

/-- The JS `\s` character class, as used by the entry-start regex. -/
def isWs (c : Char) : Bool := c.isWhitespace

/-- Case-insensitive literal word match — a regex alternative of
`@(article|INPROCEEDINGS)` under the `i` flag.  Consumes exactly the
pattern's length, comparing characters case-insensitively, and returns
the consumed characters (in their original case) plus the rest. -/
def matchWordCI : List Char → List Char → Option (List Char × List Char)
  | [], s => some ([], s)
  | _ :: _, [] => none
  | p :: ps, c :: cs =>
    if c.toLower = p.toLower then
      match matchWordCI ps cs with
      | some (w, r) => some (c :: w, r)
      | none => none
    else none

/-- The alternation `(article|INPROCEEDINGS)` of the entry-start regex
`/@(article|INPROCEEDINGS)\s*\x7b[^,]+,/gi`: try `article` first, then
`INPROCEEDINGS` (the two alternatives start with distinct letters, so at
most one can match at a given position). -/
def matchKind (s : List Char) : Option (List Char × List Char) :=
  match matchWordCI "article".toList s with
  | some r => some r
  | none => matchWordCI "INPROCEEDINGS".toList s

/-- One attempt of the entry-start regex at the current position.
Mirrors `/@(article|INPROCEEDINGS)\s*\x7b[^,]+,/i` anchored at the head
of `s`: an `@`, the case-insensitive keyword, greedy whitespace, an
opening brace, a nonempty run of non-comma characters, and a comma.
Returns `(match, rest-after-match)`. -/
def tryMatchAt : List Char → Option (List Char × List Char)
  | [] => none
  | c :: cs =>
    if c = '@' then
      match matchKind cs with
      | some (w, rest2) =>
        match rest2.dropWhile isWs with
        | '\x7b' :: rest4 =>
          match rest4.dropWhile (fun d => decide (d ≠ ',')) with
          | ',' :: rest6 =>
            if rest4.takeWhile (fun d => decide (d ≠ ',')) = [] then none
            else some ('@' :: (w ++ rest2.takeWhile isWs ++
              '\x7b' :: (rest4.takeWhile (fun d => decide (d ≠ ',')) ++ [','])), rest6)
          | _ => none
        | _ => none
      | none => none
    else none

/-- One step of the brace counter of `extractBibTeXEntries`:
increment on `\x7b`, decrement on `\x7d`, otherwise unchanged. -/
def braceStep (n : Nat) (c : Char) : Nat :=
  if c = '\x7b' then n + 1 else if c = '\x7d' then n - 1 else n

/-- The character-by-character brace-balance scan of
`extractBibTeXEntries`: starting from counter `count` and accumulated
entry text `acc`, append each character, update the counter, and stop
with the entry as soon as the counter reaches 0; `none` if the counter
never reaches 0 before the input ends (the entry is dropped). -/
def braceScan : List Char → Nat → List Char → Option (List Char)
  | [], _, _ => none
  | c :: cs, count, acc =>
    let acc2 := acc ++ [c]
    let count2 := braceStep count c
    if count2 = 0 then some acc2 else braceScan cs count2 acc2

/-- Specification-side view of the brace scan: scanning `l` from counter
`n`, the counter reaches 0 for the first time exactly at the last
character of `l`. -/
def closesAt : List Char → Nat → Bool
  | [], _ => false
  | c :: cs, n =>
    let n2 := braceStep n c
    if n2 = 0 then cs.isEmpty else closesAt cs n2

/-- The `while ((match = startRegex.exec(content)) !== null)` loop of
`extractBibTeXEntries`.  `exec` with the `g` flag searches forward from
`lastIndex`, which the loop leaves at the end of the regex match (not at
the end of the captured entry); this is modeled by trying the regex at
each successive position and, on a match, continuing right after the
matched prefix.  `fuel` only bounds the recursion and is set to the
input length by the wrapper. -/
def extractLoop : Nat → List Char → List (List Char)
  | 0, _ => []
  | _, [] => []
  | fuel + 1, c :: cs =>
    match tryMatchAt (c :: cs) with
    | some (matched, after) =>
      (match braceScan after 1 matched with
       | some entry => [entry]
       | none => []) ++ extractLoop fuel after
    | none => extractLoop fuel cs

/-- The scan of `extractBibTeXEntries` over the normalized content. -/
def extractEntriesCore (s : List Char) : List (List Char) :=
  extractLoop s.length s

/-- `extractBibTeXEntries(content)`: coerce the input with `String(...)`,
strip backticks, Unicode-normalize (identity here, see the header note),
then run the regex-plus-brace-balance scan. -/
def extractBibTeXEntries (content : JSText) : List (List Char) :=
  extractEntriesCore ((jsString content).toList.filter (fun c => decide (c ≠ '\x60')))

/-! ## The repository object and the canonical metadata record -/

/-- `licenseInfo` as returned by the GraphQL query (`name` and `url`;
the projection used by `buildLicense`). -/
structure LicenseInfo where
  name : String
  url : Option String
  deriving Repr, DecidableEq

/-- One node of `repositoryTopics.nodes` (projected to the fields
`buildTopics` reads: `url` and `topic.name`). -/
structure TopicNode where
  url : String
  topicName : String
  deriving Repr, DecidableEq

/-- One node of `releases.nodes` (projected to the field the
normalizer reads). -/
structure ReleaseNode where
  tagName : String
  deriving Repr, DecidableEq

/-- One `author` node of the default-branch commit history
(`defaultBranchRef.target.history.edges[].node.author`). -/
structure CommitAuthor where
  name : String
  email : Option String
  deriving Repr, DecidableEq

/-- The GraphQL repository object consumed by `githubMetadata`,
restricted to the fields that function reads. -/
structure RepositoryObject where
  name : String
  description : Option String
  homepageUrl : Option String
  mirrorUrl : Option String
  url : Option String
  isDisabled : Bool
  isEmpty : Bool
  isLocked : Bool
  isPrivate : Bool
  isTemplate : Bool
  licenseInfo : Option LicenseInfo
  releases : List ReleaseNode
  repositoryTopics : List TopicNode
  history : List CommitAuthor
  deriving Repr, DecidableEq

/-- An element of `metadata.topics`. -/
structure TopicItem where
  uri : String
  term : String
  vocabulary : String
  deriving Repr, DecidableEq

/-- An element of `metadata.authors`. -/
structure Author where
  name : String
  type : String
  email : String
  maintainer : Bool
  deriving Repr, DecidableEq

/-- An element of `metadata.license` (`url` is the GraphQL value, which
can be `null`; the citation mapper pushes an empty string). -/
structure LicenseItem where
  name : String
  url : Option String
  deriving Repr, DecidableEq

/-- An element of `metadata.publication`. -/
structure PubEntry where
  title : String
  year : String
  doi : String
  url : String
  deriving Repr, DecidableEq

/-- The `semantics` sub-object of the metadata record. -/
structure Semantics where
  inputs : List String
  outputs : List String
  topics : List String
  operations : List String
  deriving Repr, DecidableEq

/-- The canonical metadata record built by `githubMetadata`. -/
structure Metadata where
  name : String
  label : List String
  description : List String
  links : List String
  webpage : List String
  isDisabled : Bool
  isEmpty : Bool
  isLocked : Bool
  isPrivate : Bool
  isTemplate : Bool
  version : List String
  license : List LicenseItem
  repository : List String
  topics : List TopicItem
  operations : List String
  authors : List Author
  bioschemas : Bool
  contribPolicy : List String
  dependencies : List String
  documentation : List String
  download : List String
  edam_operations : List String
  edam_topics : List String
  https : Bool
  input : List String
  inst_instr : Bool
  operational : Bool
  os : List String
  output : List String
  publication : List PubEntry
  semantics : Semantics
  source : List String
  src : List String
  ssl : Bool
  tags : List String
  test : List String
  type : String
  deriving Repr, DecidableEq

/-! ## The metadata normalizer (`githubMetadata` and its helpers) -/

/-- `removeNull(array)`: remove the `null` values from an array.  In the
`Option` model the non-null values are the `some`s. -/
def removeNull (array : List (Option α)) : List α :=
  array.filterMap id

/-- `buildTopics(githubObject)`: one `\x7buri, term, vocabulary: ''\x7d`
item per repository-topic node (the source guards on a nonempty node
list before its `forEach`, which coincides with mapping the empty
list). -/
def buildTopics (githubObject : RepositoryObject) : List TopicItem :=
  githubObject.repositoryTopics.map fun node =>
    { uri := node.url, term := node.topicName, vocabulary := "" }

/-- The author object `buildAuthors` builds for one commit-history
contributor (`email || ''` maps both `null` and the empty string to
`''`; the contributor type is always `person`). -/
def contributorAuthor (contributor : CommitAuthor) : Author :=
  { name := contributor.name, type := "person"
    email := contributor.email.getD "", maintainer := false }

/-- The push of `buildAuthors`: append the author unless an
already-pushed author has the same email. -/
def pushUnlessEmail (authors : List Author) (author : Author) : List Author :=
  if authors.any (fun existingAuthor => existingAuthor.email == author.email) then
    authors
  else
    authors ++ [author]

/-- `buildAuthors(githubObject)`: project each commit-history author to
an `Author` and push it with the email-duplicate guard. -/
def buildAuthors (githubObject : RepositoryObject) : List Author :=
  githubObject.history.foldl
    (fun authors contributor => pushUnlessEmail authors (contributorAuthor contributor))
    []

/-- `buildLicense(githubObject)`: a one-element list from `licenseInfo`
if it is non-null, else the empty list. -/
def buildLicense (githubObject : RepositoryObject) : List LicenseItem :=
  match githubObject.licenseInfo with
  | some li => [{ name := li.name, url := li.url }]
  | none => []

/-- `githubMetadata(ghObject)`: the pure mapping from the GraphQL
repository object to the canonical metadata record. -/
def githubMetadata (ghObject : RepositoryObject) : Metadata where
  name := ghObject.name
  label := [ghObject.name]
  description := removeNull [ghObject.description]
  links := removeNull [ghObject.mirrorUrl]
  webpage := removeNull [ghObject.homepageUrl]
  isDisabled := ghObject.isDisabled
  isEmpty := ghObject.isEmpty
  isLocked := ghObject.isLocked
  isPrivate := ghObject.isPrivate
  isTemplate := ghObject.isTemplate
  version := ghObject.releases.map (fun node => node.tagName)
  license := buildLicense ghObject
  repository := removeNull [ghObject.url]
  topics := buildTopics ghObject
  operations := []
  authors := buildAuthors ghObject
  bioschemas := false
  contribPolicy := []
  dependencies := []
  documentation := []
  download := []
  edam_operations := []
  edam_topics := []
  https := true
  input := []
  inst_instr := false
  operational := false
  os := []
  output := []
  publication := []
  semantics := { inputs := [], outputs := [], topics := [], operations := [] }
  source := ["github"]
  src := []
  ssl := true
  tags := []
  test := []
  type := ""

/-! ## The CITATION.cff mapper (`parseCitationCFF`) -/

/-- One element of the `authors` list of a parsed CITATION.cff file. -/
structure CFFAuthor where
  givenNames : String
  familyNames : String
  deriving Repr, DecidableEq

/-- The `preferred-citation` sub-object of a parsed CITATION.cff file
(fields read by the mapper; `none` models an absent key, and `|| ''`
collapses both an absent and an empty value to `''`). -/
structure PreferredCitation where
  title : Option String
  year : Option String
  doi : Option String
  url : Option String
  deriving Repr, DecidableEq

/-- The result of `yaml.load` on a CITATION.cff file, restricted to the
keys `parseCitationCFF` reads.  `none` in a field models an absent
key. -/
structure CitationData where
  license : Option String
  title : Option String
  authors : Option (List CFFAuthor)
  version : Option String
  preferredCitation : Option PreferredCitation
  deriving Repr, DecidableEq

/-- JS truthiness of a possibly-absent string: absent, and the empty
string, are falsy. -/
def truthyStr : Option String → Bool
  | none => false
  | some s => !s.isEmpty

/-- The `if (citationData.license)` step: append
`\x7bname: license, url: ''\x7d` to `metadata.license`. -/
def cffLicenseStep (cd : CitationData) (metadata : Metadata) : Metadata :=
  if truthyStr cd.license then
    { metadata with license := metadata.license ++ [{ name := cd.license.getD "", url := some "" }] }
  else metadata

/-- The `if (citationData.title)` step: append the title to
`metadata.label`. -/
def cffTitleStep (cd : CitationData) (metadata : Metadata) : Metadata :=
  if truthyStr cd.title then
    { metadata with label := metadata.label ++ [cd.title.getD ""] }
  else metadata

/-- The author an `authors` element of CITATION.cff is mapped to. -/
def cffAuthor (author : CFFAuthor) : Author :=
  { name := author.givenNames ++ " " ++ author.familyNames
    email := "", maintainer := false, type := "person" }

/-- The `if (citationData.authors.length > 0)` step (reached only when
`authors` is present): replace `metadata.authors` entirely. -/
def cffAuthorsStep (authorsList : List CFFAuthor) (metadata : Metadata) : Metadata :=
  if authorsList.length > 0 then
    { metadata with authors := authorsList.map cffAuthor }
  else metadata

/-- The `if (citationData.version)` step: append the version. -/
def cffVersionStep (cd : CitationData) (metadata : Metadata) : Metadata :=
  if truthyStr cd.version then
    { metadata with version := metadata.version ++ [cd.version.getD ""] }
  else metadata

/-- The `if (citationData['preferred-citation'])` step: append one
publication entry built from its title/year/doi/url (each `|| ''`). -/
def cffPreferredStep (cd : CitationData) (metadata : Metadata) : Metadata :=
  match cd.preferredCitation with
  | some pc =>
    { metadata with publication := metadata.publication ++
        [{ title := pc.title.getD "", year := pc.year.getD ""
           doi := pc.doi.getD "", url := pc.url.getD "" }] }
  | none => metadata

/-- `parseCitationCFF(citationContent, metadata)` over the parsed YAML
value.  `citationData = none` models a `yaml.load` failure: the
exception is caught and the record is returned unchanged.  When
`authors` is absent, `citationData.authors.length` throws a
`TypeError`; the catch block returns the record carrying the mutations
made before the throw (license and title), while the version and
preferred-citation steps never run. -/
def parseCitationCFF (citationData : Option CitationData) (metadata : Metadata) : Metadata :=
  match citationData with
  | none => metadata
  | some cd =>
    let m := cffTitleStep cd (cffLicenseStep cd metadata)
    match cd.authors with
    | none => m
    | some authorsList =>
      cffPreferredStep cd (cffVersionStep cd (cffAuthorsStep authorsList m))

/-! ## The list-id preparer (`PrepareListsIds`)

`PrepareListsIds` is dynamic JS: it indexes the record by field-name
strings.  It is modeled over a JSON-like value: the record is an
association list of field names to values. -/

/-- A JSON-like JS value. -/
inductive JVal where
  | str : String → JVal
  | num : Nat → JVal
  | bool : Bool → JVal
  | null : JVal
  | arr : List JVal → JVal
  | obj : List (String × JVal) → JVal

/-- A JS object as an association list (keys unique, insertion order). -/
abbrev JObj := List (String × JVal)

/-- `metadata[field]` — the value at a key, if present. -/
def getField (m : JObj) (k : String) : Option JVal :=
  match m with
  | [] => none
  | (k2, v) :: rest => if k2 = k then some v else getField rest k

/-- `metadata[field] = v` — replace the value at a key. -/
def setField (m : JObj) (k : String) (v : JVal) : JObj :=
  match m with
  | [] => []
  | (k2, v2) :: rest =>
    if k2 = k then (k2, v) :: setField rest k v else (k2, v2) :: setField rest k v

/-- The fixed, ordered set of field names rewritten by
`PrepareListsIds`. -/
def idFields : List String :=
  ["edam_topics", "edam_operations", "documentation", "description",
   "webpage", "license", "src", "links", "topics", "operations",
   "input", "output", "repository", "dependencies", "os", "authors",
   "publication"]

/-- The per-field loop body of `PrepareListsIds`: wrap the `n`-th
element as `\x7bterm: item, id: n\x7d`, with `n` counting from 0. -/
def assignIds (l : List JVal) : List JVal :=
  l.enum.map fun p => JVal.obj [("term", p.2), ("id", JVal.num p.1)]

/-- The `for (const field of fields)` loop of `PrepareListsIds`:
`none` models the exception JS raises when `metadata[field]` is not an
iterable array (the function has no try/catch of its own). -/
def prepFields : List String → JObj → Option JObj
  | [], m => some m
  | k :: ks, m =>
    match getField m k with
    | some (JVal.arr l) => prepFields ks (setField m k (JVal.arr (assignIds l)))
    | _ => none

/-- `PrepareListsIds(metadata)` over the association-list record. -/
def PrepareListsIds (metadata : JObj) : Option JObj :=
  prepFields idFields metadata

/-! ## The document classifier (`processFiles`) -/

/-- One `\x7bname, type\x7d` entry of a directory listing. -/
structure FileEntry where
  name : String
  type : String
  deriving Repr, DecidableEq

/-- One classified documentation file. -/
structure DocFile where
  type : String
  url : String
  deriving Repr, DecidableEq

/-- The fixed `docTypes` catalog of `fetchDocumentationFiles`, in
source (insertion) order. -/
def docTypes : List (String × List String) :=
  [("readme", ["README.md", "README.txt"]),
   ("contributing", ["CONTRIBUTING.md", "CONTRIBUTING.txt"]),
   ("license", ["LICENSE.md", "LICENSE.txt", "LICENSE"]),
   ("code_of_conduct", ["CODE_OF_CONDUCT.md", "CODE_OF_CONDUCT.txt"]),
   ("changelog", ["CHANGELOG.md", "CHANGELOG.txt"]),
   ("installation", ["INSTALL.md", "INSTALL.txt", "INSTALL"]),
   ("usage", ["USAGE.md", "USAGE.txt", "USAGE"]),
   ("api", ["API.md", "API.txt", "API"]),
   ("faq", ["FAQ.md", "FAQ.txt", "FAQ"]),
   ("tutorial", ["TUTORIAL.md", "TUTORIAL.txt", "TUTORIAL"]),
   ("requirements", ["REQUIREMENTS.md", "REQUIREMENTS.txt", "REQUIREMENTS"]),
   ("citation", ["CITATION.md", "CITATION.txt", "CITATION", "CITATION.cff"])]

/-- JS `String.prototype.endsWith`. -/
def jsEndsWith (s suffix : String) : Bool :=
  List.isSuffixOf suffix.toList s.toList

/-- JS `String.prototype.toUpperCase()` (ASCII range, as used by the
catalog names). -/
def jsToUpper (s : String) : String :=
  String.mk (s.toList.map Char.toUpper)

/-- `processFiles(files, owner, repo, docTypes, dir = '')`: keep only
blob entries whose name ends in `.md` or `.txt`; classify each against
the catalog by case-insensitive exact-name match (first catalog entry
wins); unmatched files get the directory name, or `root` at top level
(`dir || 'root'`).  URLs always use the `main` branch. -/
def processFiles (files : List FileEntry) (owner repo : String)
    (dts : List (String × List String)) (dir : String) : List DocFile :=
  (files.filter fun file =>
      file.type == "blob" && (jsEndsWith file.name ".md" || jsEndsWith file.name ".txt")).map
    fun file =>
      let url := "https://github.com/" ++ owner ++ "/" ++ repo ++ "/blob/main/" ++
        (if dir = "" then "" else dir ++ "/") ++ file.name
      match dts.find? (fun kv => (kv.2.map jsToUpper).contains (jsToUpper file.name)) with
      | some kv => { type := kv.1, url := url }
      | none => { type := if dir = "" then "root" else dir, url := url }

/-! ## The publication builder (`cleanBracketsInObject`,
`extractJournalPublication`) -/

/-- JS `String.prototype.trim()` over the character list: drop
whitespace from both ends. -/
def jsTrimL (l : List Char) : List Char :=
  ((l.dropWhile isWs).reverse.dropWhile isWs).reverse

/-- The per-value step of `cleanBracketsInObject`: if the string starts
with `\x7b` and ends with `\x7d`, drop the first and last character
(`slice(1, -1)`) and `trim()` the rest; otherwise leave it alone. -/
def cleanValue (l : List Char) : List Char :=
  if l.head? = some '\x7b' ∧ l.getLast? = some '\x7d' then
    jsTrimL (l.drop 1).dropLast
  else l

/-- `cleanValue` on a `String`. -/
def cleanStr (s : String) : String :=
  String.mk (cleanValue s.toList)

/-- The field mapping produced by `bibtex-parser` for one entry
(projected to its first key, the fields the builder reads; `none` is an
absent field). -/
structure ParsedFields where
  TITLE : Option String
  YEAR : Option String
  DOI : Option String
  URL : Option String
  deriving Repr, DecidableEq

/-- The raw publication built from one parsed entry: each field
defaults to the empty string (`|| ''`). -/
def mkRawPub (pf : ParsedFields) : PubEntry :=
  { title := pf.TITLE.getD "", year := pf.YEAR.getD ""
    doi := pf.DOI.getD "", url := pf.URL.getD "" }

/-- `cleanBracketsInObject(obj)` on a publication record: the loop over
the object's own string-valued keys visits exactly the four fields. -/
def cleanBracketsInObject (p : PubEntry) : PubEntry :=
  { title := cleanStr p.title, year := cleanStr p.year
    doi := cleanStr p.doi, url := cleanStr p.url }

/-- `extractJournalPublication(content)`.  `parseBib` is the oracle for
the external `bibtex-parser` dependency composed with the first-key
projection; `none` models an entry on which `parse` (or the key
projection) throws — such an entry is caught, logged and skipped while
the loop continues. -/
def extractJournalPublication (parseBib : List Char → Option ParsedFields)
    (content : JSText) : List PubEntry :=
  (extractBibTeXEntries content).filterMap fun entry =>
    (parseBib entry).map fun pf => cleanBracketsInObject (mkRawPub pf)

/-! ## The branch-name generator (`generateBranchName`, metadata
updater helper module) -/

/-- The argument of `generateBranchName`: either an actual JS array of
branch-name strings, or any other value (`null`, `undefined`, a
non-array object, ...), which fails the
`!branches || !Array.isArray(branches)` guard. -/
inductive BranchesArg where
  | arr : List String → BranchesArg
  | notArray : BranchesArg

/-- Decimal digits of `n`, least significant first (`fuel`-bounded
structural recursion; any `fuel ≥ n` is exact). -/
def natDigitsAux : Nat → Nat → List Char
  | 0, _ => []
  | fuel + 1, n =>
    if n = 0 then [] else Nat.digitChar (n % 10) :: natDigitsAux fuel (n / 10)

/-- Canonical decimal rendering of a `Nat` — the JS number-to-string
conversion performed by the template literal for integers. -/
def natToString (n : Nat) : String :=
  if n = 0 then "0" else String.mk (natDigitsAux n n).reverse

/-- The numeric value of a big-endian digit string (`parseInt(_, 10)`
on a `\d+` match). -/
def digitsToNat (l : List Char) : Nat :=
  l.foldl (fun a c => a * 10 + (c.toNat - 48)) 0

/-- Match a literal character-list pattern at the head of the input and
return the rest. -/
def chopLit : List Char → List Char → Option (List Char)
  | [], s => some s
  | _ :: _, [] => none
  | p :: ps, c :: cs => if c = p then chopLit ps cs else none

/-- The per-branch step of `generateBranchName`: the full-string regex
`^evaluator(?:-(\d+))?$`, combined with `parseInt(match[1], 10) || 0`
(bare `evaluator` has no captured group, `parseInt(undefined)` is `NaN`,
and `NaN || 0` is `0`; a captured `0` also yields `0`). -/
def evaluatorNum (s : String) : Option Nat :=
  if s = "evaluator" then some 0
  else
    match chopLit "evaluator-".toList s.toList with
    | some t => if t ≠ [] ∧ t.all Char.isDigit then some (digitsToNat t) else none
    | none => none

/-- `generateBranchName(branches)`: throw on a non-array input; filter
the branch names through the `evaluator` pattern; take the maximum
matched number plus one (or 1 when there is no match) and render
`evaluator-$\x7bnextNumber\x7d`. -/
def generateBranchName (branches : BranchesArg) : Except String String :=
  match branches with
  | .notArray => .error "Invalid input: allBranchNames must be an array."
  | .arr l =>
    let evaluatorBranches := l.filterMap evaluatorNum
    let nextNumber :=
      if evaluatorBranches.length > 0 then evaluatorBranches.foldl Nat.max 0 + 1 else 1
    .ok ("evaluator-" ++ natToString nextNumber)

/-! ## Theorems -/

/-! Projection lemmas for the CITATION.cff mapping steps. -/

theorem cffLicenseStep_authors (cd : CitationData) (m : Metadata) :
    (cffLicenseStep cd m).authors = m.authors := by
  unfold cffLicenseStep; split <;> rfl

theorem cffLicenseStep_version (cd : CitationData) (m : Metadata) :
    (cffLicenseStep cd m).version = m.version := by
  unfold cffLicenseStep; split <;> rfl

theorem cffLicenseStep_publication (cd : CitationData) (m : Metadata) :
    (cffLicenseStep cd m).publication = m.publication := by
  unfold cffLicenseStep; split <;> rfl

theorem cffLicenseStep_label (cd : CitationData) (m : Metadata) :
    (cffLicenseStep cd m).label = m.label := by
  unfold cffLicenseStep; split <;> rfl

theorem cffLicenseStep_license (cd : CitationData) (m : Metadata) :
    (cffLicenseStep cd m).license =
      (if truthyStr cd.license then
        m.license ++ [{ name := cd.license.getD "", url := some "" }]
      else m.license) := by
  unfold cffLicenseStep; split <;> simp_all

theorem cffTitleStep_authors (cd : CitationData) (m : Metadata) :
    (cffTitleStep cd m).authors = m.authors := by
  unfold cffTitleStep; split <;> rfl

theorem cffTitleStep_version (cd : CitationData) (m : Metadata) :
    (cffTitleStep cd m).version = m.version := by
  unfold cffTitleStep; split <;> rfl

theorem cffTitleStep_publication (cd : CitationData) (m : Metadata) :
    (cffTitleStep cd m).publication = m.publication := by
  unfold cffTitleStep; split <;> rfl

theorem cffTitleStep_license (cd : CitationData) (m : Metadata) :
    (cffTitleStep cd m).license = m.license := by
  unfold cffTitleStep; split <;> rfl

theorem cffTitleStep_label (cd : CitationData) (m : Metadata) :
    (cffTitleStep cd m).label =
      (if truthyStr cd.title then m.label ++ [cd.title.getD ""] else m.label) := by
  unfold cffTitleStep; split <;> simp_all

theorem cffAuthorsStep_nil (m : Metadata) :
    cffAuthorsStep [] m = m := by
  unfold cffAuthorsStep; simp

theorem cffAuthorsStep_authors_pos (authorsList : List CFFAuthor) (m : Metadata)
    (h : 0 < authorsList.length) :
    (cffAuthorsStep authorsList m).authors = authorsList.map cffAuthor := by
  unfold cffAuthorsStep; rw [if_pos h]

theorem cffVersionStep_authors (cd : CitationData) (m : Metadata) :
    (cffVersionStep cd m).authors = m.authors := by
  unfold cffVersionStep; split <;> rfl

theorem cffVersionStep_license (cd : CitationData) (m : Metadata) :
    (cffVersionStep cd m).license = m.license := by
  unfold cffVersionStep; split <;> rfl

theorem cffVersionStep_label (cd : CitationData) (m : Metadata) :
    (cffVersionStep cd m).label = m.label := by
  unfold cffVersionStep; split <;> rfl

theorem cffVersionStep_publication (cd : CitationData) (m : Metadata) :
    (cffVersionStep cd m).publication = m.publication := by
  unfold cffVersionStep; split <;> rfl

theorem cffVersionStep_version (cd : CitationData) (m : Metadata) :
    (cffVersionStep cd m).version =
      (if truthyStr cd.version then m.version ++ [cd.version.getD ""] else m.version) := by
  unfold cffVersionStep; split <;> simp_all

theorem cffPreferredStep_authors (cd : CitationData) (m : Metadata) :
    (cffPreferredStep cd m).authors = m.authors := by
  unfold cffPreferredStep; split <;> rfl

theorem cffPreferredStep_license (cd : CitationData) (m : Metadata) :
    (cffPreferredStep cd m).license = m.license := by
  unfold cffPreferredStep; split <;> rfl

theorem cffPreferredStep_label (cd : CitationData) (m : Metadata) :
    (cffPreferredStep cd m).label = m.label := by
  unfold cffPreferredStep; split <;> rfl

theorem cffPreferredStep_version (cd : CitationData) (m : Metadata) :
    (cffPreferredStep cd m).version = m.version := by
  unfold cffPreferredStep; split <;> rfl

theorem cffPreferredStep_publication (cd : CitationData) (m : Metadata) :
    (cffPreferredStep cd m).publication =
      (match cd.preferredCitation with
       | some pc => m.publication ++
           [{ title := pc.title.getD "", year := pc.year.getD ""
              doi := pc.doi.getD "", url := pc.url.getD "" }]
       | none => m.publication) := by
  unfold cffPreferredStep; split <;> simp_all

/-- A concrete repository object used to instantiate theorems. -/
def sampleRepo : RepositoryObject where
  name := "tool"
  description := none
  homepageUrl := some "http://x"
  mirrorUrl := none
  url := some "https://github.com/o/tool"
  isDisabled := false
  isEmpty := false
  isLocked := false
  isPrivate := false
  isTemplate := false
  licenseInfo := none
  releases := []
  repositoryTopics := []
  history := [{ name := "Old Author", email := some "old@x.org" }]

/-- C9: `extractJournalPublication` coerces a `null` or `undefined`
README marker with `String(...)` and, finding no entry-start match in
the resulting text, returns the empty publication list for every BibTeX
parsing oracle — the README-extraction step is total over the text
provider's absence markers. -/
theorem extractJournalPublication_absent_total
    (parseBib : List Char → Option ParsedFields) :
    extractJournalPublication parseBib JSText.null = []
    ∧ extractJournalPublication parseBib JSText.undefined = []
    ∧ extractBibTeXEntries JSText.null = []
    ∧ extractBibTeXEntries JSText.undefined = [] :=
  ⟨rfl, rfl, rfl, rfl⟩

/-- C2: when the parsed CITATION.cff has a non-empty `authors` list,
`parseCitationCFF` replaces `metadata.authors` entirely (regardless of
the prior list) with one
`\x7bname: "<given-names> <family-names>", email: '', maintainer: false,
type: 'person'\x7d` entry per citation author, in order. -/
theorem parseCitationCFF_replaces_authors (cd : CitationData) (metadata : Metadata)
    (authorsList : List CFFAuthor) (hsome : cd.authors = some authorsList)
    (hne : authorsList ≠ []) :
    (parseCitationCFF (some cd) metadata).authors = authorsList.map cffAuthor := by
  have hlen : 0 < authorsList.length := List.length_pos.mpr hne
  simp only [parseCitationCFF, hsome]
  rw [cffPreferredStep_authors, cffVersionStep_authors,
    cffAuthorsStep_authors_pos _ _ hlen]

/-- Witness for C2 at the spec's end-to-end scenario. -/
theorem parseCitationCFF_replaces_authors_witness :
    (parseCitationCFF
        (some { license := none, title := none
                authors := some [{ givenNames := "A", familyNames := "B" }]
                version := none, preferredCitation := none })
        (githubMetadata sampleRepo)).authors
      = [{ name := "A B", type := "person", email := "", maintainer := false }] := by
  have h := parseCitationCFF_replaces_authors
    { license := none, title := none
      authors := some [{ givenNames := "A", familyNames := "B" }]
      version := none, preferredCitation := none }
    (githubMetadata sampleRepo)
    [{ givenNames := "A", familyNames := "B" }] rfl (by decide)
  simpa using h

/-- C3 counterexample: with `authors` absent from the parsed YAML and a
`version` present, the `citationData.authors.length` access throws
before the version step runs, so `metadata.version` is NOT extended —
against the claim that the other mappings of the same call are still
applied. -/
theorem parseCitationCFF_absent_authors_counterexample :
    (parseCitationCFF
        (some { license := none, title := none, authors := none
                version := some "1.0", preferredCitation := none })
        (githubMetadata sampleRepo)).version = []
    ∧ (parseCitationCFF
        (some { license := none, title := none, authors := none
                version := some "1.0", preferredCitation := none })
        (githubMetadata sampleRepo)).version
      ≠ (githubMetadata sampleRepo).version ++ ["1.0"] := by
  decide

/-- C3 (amended): on YAML that parses but has no `authors` key, the
mapper does not crash and `metadata.authors` is unchanged; the license
and title mappings (which run before the faulting access) are applied,
but the version and preferred-citation mappings are skipped because the
caught `TypeError` aborts the rest of the call.  When `authors` is
present but empty, author replacement is skipped while all the other
mappings are applied. -/
theorem parseCitationCFF_absent_or_empty_authors (cd : CitationData) (metadata : Metadata) :
    (cd.authors = none →
      (parseCitationCFF (some cd) metadata).authors = metadata.authors
      ∧ (parseCitationCFF (some cd) metadata).version = metadata.version
      ∧ (parseCitationCFF (some cd) metadata).publication = metadata.publication
      ∧ (parseCitationCFF (some cd) metadata).license =
          (if truthyStr cd.license then
            metadata.license ++ [{ name := cd.license.getD "", url := some "" }]
          else metadata.license)
      ∧ (parseCitationCFF (some cd) metadata).label =
          (if truthyStr cd.title then metadata.label ++ [cd.title.getD ""]
           else metadata.label))
    ∧ (cd.authors = some [] →
      (parseCitationCFF (some cd) metadata).authors = metadata.authors
      ∧ (parseCitationCFF (some cd) metadata).license =
          (if truthyStr cd.license then
            metadata.license ++ [{ name := cd.license.getD "", url := some "" }]
          else metadata.license)
      ∧ (parseCitationCFF (some cd) metadata).label =
          (if truthyStr cd.title then metadata.label ++ [cd.title.getD ""]
           else metadata.label)
      ∧ (parseCitationCFF (some cd) metadata).version =
          (if truthyStr cd.version then metadata.version ++ [cd.version.getD ""]
           else metadata.version)
      ∧ (parseCitationCFF (some cd) metadata).publication =
          (match cd.preferredCitation with
           | some pc => metadata.publication ++
               [{ title := pc.title.getD "", year := pc.year.getD ""
                  doi := pc.doi.getD "", url := pc.url.getD "" }]
           | none => metadata.publication)) := by
  constructor
  · intro hauth
    simp only [parseCitationCFF, hauth]
    refine ⟨?_, ?_, ?_, ?_, ?_⟩
    · rw [cffTitleStep_authors, cffLicenseStep_authors]
    · rw [cffTitleStep_version, cffLicenseStep_version]
    · rw [cffTitleStep_publication, cffLicenseStep_publication]
    · rw [cffTitleStep_license, cffLicenseStep_license]
    · rw [cffTitleStep_label, cffLicenseStep_label]
  · intro hauth
    simp only [parseCitationCFF, hauth, cffAuthorsStep_nil]
    refine ⟨?_, ?_, ?_, ?_, ?_⟩
    · rw [cffPreferredStep_authors, cffVersionStep_authors,
        cffTitleStep_authors, cffLicenseStep_authors]
    · rw [cffPreferredStep_license, cffVersionStep_license,
        cffTitleStep_license, cffLicenseStep_license]
    · rw [cffPreferredStep_label, cffVersionStep_label,
        cffTitleStep_label, cffLicenseStep_label]
    · rw [cffPreferredStep_version, cffVersionStep_version,
        cffTitleStep_version, cffLicenseStep_version]
    · rw [cffPreferredStep_publication, cffVersionStep_publication,
        cffTitleStep_publication, cffLicenseStep_publication]

/-- Witness for C3 (amended) at concrete inputs, covering both the
absent-authors and the empty-authors branch. -/
theorem parseCitationCFF_absent_or_empty_authors_witness :
    ((parseCitationCFF
        (some { license := none, title := none, authors := none
                version := some "1.0", preferredCitation := none })
        (githubMetadata sampleRepo)).authors = (githubMetadata sampleRepo).authors
      ∧ (parseCitationCFF
          (some { license := none, title := none, authors := none
                  version := some "1.0", preferredCitation := none })
          (githubMetadata sampleRepo)).version = (githubMetadata sampleRepo).version)
    ∧ (parseCitationCFF
        (some { license := some "MIT", title := none, authors := some []
                version := some "1.0", preferredCitation := none })
        (githubMetadata sampleRepo)).version = (githubMetadata sampleRepo).version ++ ["1.0"] := by
  constructor
  · have h := (parseCitationCFF_absent_or_empty_authors
      { license := none, title := none, authors := none
        version := some "1.0", preferredCitation := none }
      (githubMetadata sampleRepo)).1 rfl
    exact ⟨h.1, h.2.1⟩
  · have h := (parseCitationCFF_absent_or_empty_authors
      { license := some "MIT", title := none, authors := some []
        version := some "1.0", preferredCitation := none }
      (githubMetadata sampleRepo)).2 rfl
    simpa using h.2.2.2.1

/-- C5: the metadata normalizer wraps `description`, `mirrorUrl`
(`links`), `homepageUrl` (`webpage`) and `url` (`repository`) as
`removeNull` of a one-element array — the empty list exactly when the
source value is null/absent, otherwise a one-element list — and a null
`licenseInfo` yields an empty `license` list. -/
theorem githubMetadata_null_wrapping (gh : RepositoryObject) :
    (githubMetadata gh).description = removeNull [gh.description]
    ∧ (githubMetadata gh).links = removeNull [gh.mirrorUrl]
    ∧ (githubMetadata gh).webpage = removeNull [gh.homepageUrl]
    ∧ (githubMetadata gh).repository = removeNull [gh.url]
    ∧ (∀ v : Option String, removeNull [v] = match v with | none => [] | some x => [x])
    ∧ (gh.licenseInfo = none → (githubMetadata gh).license = []) := by
  refine ⟨rfl, rfl, rfl, rfl, ?_, ?_⟩
  · intro v; cases v <;> rfl
  · intro h; simp [githubMetadata, buildLicense, h]

/-- Witness for C5 at the spec's concrete instance (`sampleRepo` has
`description = null`, `homepageUrl = "http://x"`, `licenseInfo =
null`). -/
theorem githubMetadata_null_wrapping_witness :
    (githubMetadata sampleRepo).description = []
    ∧ (githubMetadata sampleRepo).webpage = ["http://x"]
    ∧ (githubMetadata sampleRepo).license = [] := by
  have h := githubMetadata_null_wrapping sampleRepo
  exact ⟨h.1.trans rfl, h.2.2.1.trans rfl, h.2.2.2.2.2 rfl⟩

/-- The root listing of the classifier scenario: `README.md`,
`LICENSE`, `NOTES.md`, all blobs. -/
def classifierRootFiles : List FileEntry :=
  [{ name := "README.md", type := "blob" }, { name := "LICENSE", type := "blob" },
   { name := "NOTES.md", type := "blob" }]

/-- C4 counterexample: on the root listing `README.md`, `LICENSE`,
`NOTES.md`, the classifier never produces a `license` entry — the
extension filter (`.md`/`.txt`) runs before classification and drops
the bare `LICENSE` file, so the output has two entries, not three. -/
theorem processFiles_license_counterexample :
    processFiles classifierRootFiles "owner" "repo" docTypes "" =
      [{ type := "readme", url := "https://github.com/owner/repo/blob/main/README.md" },
       { type := "root", url := "https://github.com/owner/repo/blob/main/NOTES.md" }]
    ∧ (processFiles classifierRootFiles "owner" "repo" docTypes "").length ≠ 3
    ∧ ∀ d ∈ processFiles classifierRootFiles "owner" "repo" docTypes "",
        d.type ≠ "license" := by
  decide

/-- C4 (amended): on the root listing `README.md`, `LICENSE`,
`NOTES.md` with no directory matches, the classifier yields README.md
with type `readme` and NOTES.md with the unmatched type `root`, each
with a `https://github.com/\x7bowner\x7d/\x7brepo\x7d/blob/main/\x7bfilename\x7d`
URL (branch hard-coded as `main`); the bare `LICENSE` file has neither
a `.md` nor a `.txt` extension, is removed by the file filter, and
yields no entry. -/
theorem processFiles_root_scenario :
    processFiles classifierRootFiles "owner" "repo" docTypes "" =
      [{ type := "readme", url := "https://github.com/owner/repo/blob/main/README.md" },
       { type := "root", url := "https://github.com/owner/repo/blob/main/NOTES.md" }] := by
  decide

/-! Association-list lemmas for the list-id preparer. -/

theorem getField_setField_self (m : JObj) (k : String) (v : JVal)
    (h : (getField m k).isSome) : getField (setField m k v) k = some v := by
  induction m with
  | nil => simp [getField] at h
  | cons e rest ih =>
    obtain ⟨k2, v2⟩ := e
    by_cases hk : k2 = k
    · subst hk; simp [getField, setField]
    · simp only [getField, setField, hk, if_false] at h ⊢
      exact ih h

theorem getField_setField_ne (m : JObj) (k k2 : String) (v : JVal) (h : k2 ≠ k) :
    getField (setField m k v) k2 = getField m k2 := by
  induction m with
  | nil => rfl
  | cons e rest ih =>
    obtain ⟨k3, v3⟩ := e
    by_cases hk : k3 = k
    · subst hk
      have hk2 : ¬ k3 = k2 := fun he => h (he ▸ rfl)
      simp only [getField, setField, if_pos rfl, hk2, if_false]
      exact ih
    · by_cases hk2 : k3 = k2
      · simp [getField, setField, hk, hk2, h]
      · simp only [getField, setField, hk, hk2, if_false]
        exact ih

theorem prepFields_spec (ks : List String) (m : JObj) (hnd : ks.Nodup)
    (h : ∀ k ∈ ks, ∃ l, getField m k = some (JVal.arr l)) :
    ∃ m2, prepFields ks m = some m2
      ∧ (∀ k l, k ∈ ks → getField m k = some (JVal.arr l) →
          getField m2 k = some (JVal.arr (assignIds l)))
      ∧ (∀ k, k ∉ ks → getField m2 k = getField m k) := by
  induction ks generalizing m with
  | nil => exact ⟨m, rfl, by simp, fun k _ => rfl⟩
  | cons k0 ks ih =>
    obtain ⟨l0, hl0⟩ := h k0 (List.mem_cons_self _ _)
    have hnd2 : ks.Nodup := (List.nodup_cons.mp hnd).2
    have hk0 : k0 ∉ ks := (List.nodup_cons.mp hnd).1
    have hstep : prepFields (k0 :: ks) m =
        prepFields ks (setField m k0 (JVal.arr (assignIds l0))) := by
      simp [prepFields, hl0]
    have hh : ∀ k ∈ ks, ∃ l,
        getField (setField m k0 (JVal.arr (assignIds l0))) k = some (JVal.arr l) := by
      intro k hk
      have hne : k ≠ k0 := fun he => hk0 (he ▸ hk)
      rw [getField_setField_ne _ _ _ _ hne]
      exact h k (List.mem_cons_of_mem _ hk)
    obtain ⟨m2, hm2, hrep, hout⟩ := ih (setField m k0 (JVal.arr (assignIds l0))) hnd2 hh
    refine ⟨m2, hstep.trans hm2, ?_, ?_⟩
    · intro k l hk hget
      rcases List.mem_cons.mp hk with he | hmem
      · subst he
        have hll : l = l0 := by
          rw [hget] at hl0
          exact (JVal.arr.injEq _ _ ▸ (Option.some.injEq _ _ ▸ hl0) : l = l0)
        subst hll
        rw [hout k hk0]
        exact getField_setField_self m k _ (by rw [hl0]; rfl)
      · have hne : k ≠ k0 := fun he => hk0 (he ▸ hmem)
        apply hrep k l hmem
        rw [getField_setField_ne _ _ _ _ hne]
        exact hget
    · intro k hk
      have h1 : k ∉ ks := fun hm => hk (List.mem_cons_of_mem _ hm)
      have h2 : k ≠ k0 := fun he => hk (he ▸ List.mem_cons_self _ _)
      rw [hout k h1, getField_setField_ne _ _ _ _ h2]

/-- C6: when every designated field of the record holds an array,
`PrepareListsIds` succeeds and replaces exactly the designated fields:
the field's list `l` becomes `assignIds l`, whose `i`-th element is
`\x7bterm: l[i], id: i\x7d` (ids start at 0 and increment in order, and
the output length equals the input length); every field outside the
designated set is left unchanged. -/
theorem PrepareListsIds_spec (metadata : JObj)
    (h : ∀ k ∈ idFields, ∃ l, getField metadata k = some (JVal.arr l)) :
    ∃ m2, PrepareListsIds metadata = some m2
      ∧ (∀ k l, k ∈ idFields → getField metadata k = some (JVal.arr l) →
          getField m2 k = some (JVal.arr (assignIds l)))
      ∧ (∀ k, k ∉ idFields → getField m2 k = getField metadata k)
      ∧ (∀ l : List JVal, (assignIds l).length = l.length)
      ∧ (∀ (l : List JVal) (i : Nat),
          (assignIds l)[i]? = l[i]?.map fun x => JVal.obj [("term", x), ("id", JVal.num i)]) := by
  obtain ⟨m2, h1, h2, h3⟩ := prepFields_spec idFields metadata (by decide) h
  refine ⟨m2, h1, h2, h3, ?_, ?_⟩
  · intro l; simp [assignIds]
  · intro l i
    simp only [assignIds, List.getElem?_map, List.getElem?_enum]
    cases l[i]? <;> rfl

/-- A full metadata record (as a JS object) with `license = ["MIT"]`
and a non-designated `name` field. -/
def prepSample : JObj :=
  [("edam_topics", JVal.arr []), ("edam_operations", JVal.arr []),
   ("documentation", JVal.arr []), ("description", JVal.arr []),
   ("webpage", JVal.arr []), ("license", JVal.arr [JVal.str "MIT"]),
   ("src", JVal.arr []), ("links", JVal.arr []), ("topics", JVal.arr []),
   ("operations", JVal.arr []), ("input", JVal.arr []), ("output", JVal.arr []),
   ("repository", JVal.arr []), ("dependencies", JVal.arr []), ("os", JVal.arr []),
   ("authors", JVal.arr []), ("publication", JVal.arr []), ("name", JVal.str "tool")]

/-- Witness for C6 at the spec's `license: ["MIT"]` instance. -/
theorem PrepareListsIds_spec_witness :
    ∃ m2, PrepareListsIds prepSample = some m2
      ∧ getField m2 "license" =
          some (JVal.arr [JVal.obj [("term", JVal.str "MIT"), ("id", JVal.num 0)]])
      ∧ getField m2 "name" = some (JVal.str "tool") := by
  obtain ⟨m2, h1, h2, h3, _, _⟩ := PrepareListsIds_spec prepSample
    (by intro k hk; fin_cases hk <;> exact ⟨_, rfl⟩)
  refine ⟨m2, h1, ?_, ?_⟩
  · exact h2 "license" [JVal.str "MIT"] (by decide) rfl
  · exact (h3 "name" (by decide)).trans rfl

/-! Deduplication lemmas for `buildAuthors`. -/

theorem foldl_pushUnlessEmail_pairwise (l acc : List Author)
    (hacc : acc.Pairwise fun a b => a.email ≠ b.email) :
    (l.foldl pushUnlessEmail acc).Pairwise fun a b => a.email ≠ b.email := by
  induction l generalizing acc with
  | nil => exact hacc
  | cons a l ih =>
    simp only [List.foldl_cons]
    apply ih
    unfold pushUnlessEmail
    split
    · exact hacc
    · rename_i hany
      rw [List.pairwise_append]
      refine ⟨hacc, List.pairwise_singleton _ _, ?_⟩
      intro x hx y hy
      rw [List.mem_singleton] at hy
      subst hy
      intro hEq
      apply hany
      rw [List.any_eq_true]
      exact ⟨x, hx, by rw [beq_iff_eq]; exact hEq⟩

theorem foldl_pushUnlessEmail_find (l acc : List Author) (e : String) :
    (l.foldl pushUnlessEmail acc).find? (fun a => a.email == e)
      = ((acc.find? fun a => a.email == e).or (l.find? fun a => a.email == e)) := by
  induction l generalizing acc with
  | nil => simp
  | cons a l ih =>
    simp only [List.foldl_cons]
    rw [ih]
    unfold pushUnlessEmail
    split
    · rename_i hany
      by_cases hpa : (a.email == e) = true
      · obtain ⟨x, hx, hxe⟩ := List.any_eq_true.mp hany
        have hxE : (x.email == e) = true := by
          rw [beq_iff_eq] at hxe hpa ⊢
          rw [hxe, hpa]
        cases hf : acc.find? (fun a => a.email == e) with
        | none =>
          exact absurd hxE (List.find?_eq_none.mp hf x hx)
        | some w =>
          rfl
      · have hpa2 : (a.email == e) = false := by simpa using hpa
        simp [List.find?_cons, hpa2]
    · rw [List.find?_append, Option.or_assoc]
      congr 1
      by_cases hpa : (a.email == e) = true
      · simp [List.find?_cons, hpa]
      · have hpa2 : (a.email == e) = false := by simpa using hpa
        simp [List.find?_cons, hpa2]

/-- C8: the authors list produced by the metadata normalizer is unique
by email (the empty email being one equivalence class like any other
value), and for every email the retained entry is the first commit
author with that email in history order (so its name is the first-seen
name, and two commit authors sharing an email yield one entry). -/
theorem buildAuthors_unique_by_email (gh : RepositoryObject) :
    (buildAuthors gh).Pairwise (fun a b => a.email ≠ b.email)
    ∧ ∀ e : String,
        (buildAuthors gh).find? (fun a => a.email == e)
          = (gh.history.map contributorAuthor).find? (fun a => a.email == e) := by
  have hb : buildAuthors gh = (gh.history.map contributorAuthor).foldl pushUnlessEmail [] := by
    rw [buildAuthors, List.foldl_map]
  constructor
  · rw [hb]
    exact foldl_pushUnlessEmail_pairwise _ _ List.Pairwise.nil
  · intro e
    rw [hb, foldl_pushUnlessEmail_find]
    simp

/-! Digit-string lemmas for `generateBranchName`. -/

theorem natDigitsAux_zero (fuel : Nat) : natDigitsAux fuel 0 = [] := by
  cases fuel <;> simp [natDigitsAux]

theorem digitChar_toNat (d : Nat) (h : d < 10) : (Nat.digitChar d).toNat = d + 48 := by
  interval_cases d <;> rfl

theorem digitChar_isDigit (d : Nat) (h : d < 10) : (Nat.digitChar d).isDigit = true := by
  interval_cases d <;> rfl

theorem digitsToNat_append (xs : List Char) (c : Char) :
    digitsToNat (xs ++ [c]) = digitsToNat xs * 10 + (c.toNat - 48) := by
  simp [digitsToNat, List.foldl_append]

theorem natDigitsAux_spec (fuel n : Nat) (h1 : 1 ≤ n) (h2 : n ≤ fuel) :
    natDigitsAux fuel n ≠ []
    ∧ (∀ c ∈ natDigitsAux fuel n, c.isDigit = true)
    ∧ digitsToNat (natDigitsAux fuel n).reverse = n := by
  induction fuel generalizing n with
  | zero => omega
  | succ fuel ih =>
    have hn : ¬ n = 0 := by omega
    have hmod : n % 10 < 10 := Nat.mod_lt _ (by omega)
    rw [natDigitsAux, if_neg hn]
    by_cases hsmall : n < 10
    · have hq : n / 10 = 0 := Nat.div_eq_of_lt hsmall
      rw [hq, natDigitsAux_zero]
      refine ⟨by simp, ?_, ?_⟩
      · intro c hc
        rw [List.mem_singleton] at hc
        subst hc
        exact digitChar_isDigit _ hmod
      · simp only [List.reverse_singleton, digitsToNat, List.foldl_cons, List.foldl_nil,
          digitChar_toNat _ hmod]
        omega
    · have hq1 : 1 ≤ n / 10 := (Nat.one_le_div_iff (by omega)).mpr (by omega)
      have hq2 : n / 10 ≤ fuel := by
        have := Nat.div_lt_self (show 0 < n by omega) (show 1 < 10 by omega)
        omega
      obtain ⟨hne, hdig, hval⟩ := ih (n / 10) hq1 hq2
      refine ⟨by simp, ?_, ?_⟩
      · intro c hc
        rw [List.mem_cons] at hc
        rcases hc with rfl | hc
        · exact digitChar_isDigit _ hmod
        · exact hdig c hc
      · rw [List.reverse_cons, digitsToNat_append, hval, digitChar_toNat _ hmod]
        omega

theorem natToString_spec (n : Nat) (h : 1 ≤ n) :
    (natToString n).toList ≠ []
    ∧ (∀ c ∈ (natToString n).toList, c.isDigit = true)
    ∧ digitsToNat (natToString n).toList = n := by
  have hn : ¬ n = 0 := by omega
  obtain ⟨hne, hdig, hval⟩ := natDigitsAux_spec n n h le_rfl
  rw [natToString, if_neg hn]
  refine ⟨by simpa using hne, ?_, hval⟩
  intro c hc
  exact hdig c (List.mem_reverse.mp hc)

theorem chopLit_append (p t : List Char) : chopLit p (p ++ t) = some t := by
  induction p with
  | nil => rfl
  | cons c p ih => simp [chopLit, ih]

theorem evaluatorNum_render (k : Nat) (h : 1 ≤ k) :
    evaluatorNum ("evaluator-" ++ natToString k) = some k := by
  obtain ⟨hne, hdig, hval⟩ := natToString_spec k h
  have hlen1 : 1 ≤ (natToString k).length := by
    rcases hx : (natToString k).toList with _ | ⟨c, cs⟩
    · exact absurd hx hne
    · have : (natToString k).length = (natToString k).toList.length := rfl
      rw [this, hx]
      simp
  have hlen : ("evaluator-" ++ natToString k).length ≠ "evaluator".length := by
    rw [String.length_append]
    have h10 : ("evaluator-" : String).length = 10 := rfl
    have h9 : ("evaluator" : String).length = 9 := rfl
    omega
  have hs : ("evaluator-" ++ natToString k) ≠ "evaluator" := fun he => hlen (by rw [he])
  have htl : ("evaluator-" ++ natToString k).toList =
      "evaluator-".toList ++ (natToString k).toList := rfl
  have hfin : (if ((natToString k).toList ≠ [] ∧ (natToString k).toList.all Char.isDigit = true)
      then some (digitsToNat (natToString k).toList) else none) = some k := by
    rw [if_pos ⟨hne, List.all_eq_true.mpr hdig⟩, hval]
  rw [evaluatorNum, if_neg hs, htl, chopLit_append]
  exact hfin

/-! Maximum lemmas for `generateBranchName`. -/

theorem le_foldl_max (l : List Nat) (a : Nat) : a ≤ l.foldl Nat.max a := by
  induction l generalizing a with
  | nil => exact le_rfl
  | cons b l ih => exact le_trans (Nat.le_max_left a b) (ih (Nat.max a b))

theorem mem_le_foldl_max (l : List Nat) (a x : Nat) (hx : x ∈ l) :
    x ≤ l.foldl Nat.max a := by
  induction l generalizing a with
  | nil => cases hx
  | cons b l ih =>
    rcases List.mem_cons.mp hx with rfl | hx2
    · exact le_trans (Nat.le_max_right a x) (le_foldl_max l _)
    · exact ih _ hx2

/-- C10: on an array of branch names, `generateBranchName` returns
`evaluator-k` with `k ≥ 1`, where `k` is strictly greater than every
number parsed from an existing `evaluator`/`evaluator-n` branch (bare
`evaluator` counting as 0) and is 1 when no such branch exists — in
particular the generated name is fresh (not an element of the input);
on a non-array input it throws. -/
theorem generateBranchName_spec :
    (∀ l : List String, ∃ k : Nat,
        generateBranchName (.arr l) = .ok ("evaluator-" ++ natToString k)
        ∧ 1 ≤ k
        ∧ ("evaluator-" ++ natToString k) ∉ l
        ∧ (∀ m ∈ l.filterMap evaluatorNum, m < k)
        ∧ (l.filterMap evaluatorNum = [] → k = 1))
    ∧ generateBranchName .notArray
        = .error "Invalid input: allBranchNames must be an array." := by
  refine ⟨?_, rfl⟩
  intro l
  by_cases hemp : l.filterMap evaluatorNum = []
  · refine ⟨1, ?_, le_rfl, ?_, ?_, fun _ => rfl⟩
    · simp only [generateBranchName, hemp]
      rfl
    · intro hmem
      have h1 : (1 : Nat) ∈ l.filterMap evaluatorNum :=
        List.mem_filterMap.mpr ⟨_, hmem, evaluatorNum_render 1 le_rfl⟩
      rw [hemp] at h1
      cases h1
    · intro m hm
      rw [hemp] at hm
      cases hm
  · have hlen : (l.filterMap evaluatorNum).length > 0 :=
      List.length_pos.mpr hemp
    refine ⟨(l.filterMap evaluatorNum).foldl Nat.max 0 + 1, ?_, by omega, ?_, ?_,
      fun he => absurd he hemp⟩
    · simp only [generateBranchName, if_pos hlen]
    · intro hmem
      have hk : (l.filterMap evaluatorNum).foldl Nat.max 0 + 1 ∈ l.filterMap evaluatorNum :=
        List.mem_filterMap.mpr ⟨_, hmem, evaluatorNum_render _ (by omega)⟩
      have := mem_le_foldl_max (l.filterMap evaluatorNum) 0 _ hk
      omega
    · intro m hm
      have := mem_le_foldl_max (l.filterMap evaluatorNum) 0 m hm
      omega

/-- Witness for C10 on a concrete branch list. -/
theorem generateBranchName_spec_witness :
    (∃ k : Nat,
        generateBranchName (.arr ["master", "evaluator", "evaluator-1"])
          = .ok ("evaluator-" ++ natToString k)
        ∧ ("evaluator-" ++ natToString k) ∉ ["master", "evaluator", "evaluator-1"])
    ∧ generateBranchName (.arr ["master", "evaluator", "evaluator-1"]) = .ok "evaluator-2" := by
  refine ⟨?_, rfl⟩
  obtain ⟨k, h1, _, h3, _⟩ := generateBranchName_spec.1 ["master", "evaluator", "evaluator-1"]
  exact ⟨k, h1, h3⟩

/-- C7 counterexample: `cleanBracketsInObject` does not merely remove
the outer brace pair — after `slice(1, -1)` it also `trim()`s the
value, so a title of `\x7b Foo \x7d` becomes `"Foo"`, not `" Foo "` as
the claim ("removing both and nothing else") predicts. -/
theorem cleanBrackets_trim_counterexample :
    extractJournalPublication
        (fun _ => some { TITLE := some "\x7b Foo \x7d", YEAR := none, DOI := none, URL := none })
        (.str "@article\x7bk,x\x7d")
      = [{ title := "Foo", year := "", doi := "", url := "" }]
    ∧ extractJournalPublication
        (fun _ => some { TITLE := some "\x7b Foo \x7d", YEAR := none, DOI := none, URL := none })
        (.str "@article\x7bk,x\x7d")
      ≠ [{ title := " Foo ", year := "", doi := "", url := "" }] := by
  decide

/-- C7 (amended): the publication builder strips one layer of
surrounding braces and then trims surrounding whitespace from each
brace-wrapped field value (`slice(1,-1).trim()`); a value without the
brace wrapping is kept as is, missing fields default to the empty
string, an entry on which the BibTeX parser fails is skipped while the
remaining entries are still processed, and `title = \x7bFoo Bar\x7d`
yields `"Foo Bar"`. -/
theorem extractJournalPublication_amended
    (parseBib : List Char → Option ParsedFields) (content : JSText)
    (e1 e2 : List Char) (pf : ParsedFields)
    (hent : extractBibTeXEntries content = [e1, e2])
    (h1 : parseBib e1 = none) (h2 : parseBib e2 = some pf) :
    extractJournalPublication parseBib content = [cleanBracketsInObject (mkRawPub pf)]
    ∧ (pf.TITLE = some "\x7bFoo Bar\x7d" →
        (cleanBracketsInObject (mkRawPub pf)).title = "Foo Bar")
    ∧ (∀ s : List Char, cleanValue ('\x7b' :: (s ++ ['\x7d'])) = jsTrimL s)
    ∧ (pf.TITLE = none → (mkRawPub pf).title = "") := by
  refine ⟨?_, ?_, ?_, ?_⟩
  · rw [extractJournalPublication, hent]
    simp [h1, h2]
  · intro ht
    calc (cleanBracketsInObject (mkRawPub pf)).title
        = cleanStr (pf.TITLE.getD "") := rfl
      _ = cleanStr "\x7bFoo Bar\x7d" := by rw [ht]; rfl
      _ = "Foo Bar" := by decide
  · intro s
    have hhead : ('\x7b' :: (s ++ ['\x7d'])).head? = some '\x7b' := rfl
    have hlast : ('\x7b' :: (s ++ ['\x7d'])).getLast? = some '\x7d' := by
      rw [← List.cons_append, List.getLast?_concat]
    rw [cleanValue, if_pos ⟨hhead, hlast⟩]
    congr 1
    show (s ++ ['\x7d']).dropLast = s
    exact List.dropLast_concat
  · intro ht
    simp [mkRawPub, ht]

/-- Witness for C7 (amended) at a concrete two-entry README, with an
oracle failing on the first entry. -/
theorem extractJournalPublication_amended_witness :
    extractJournalPublication
        (fun e => if e = "@article\x7ba,x\x7d".toList then none
          else some { TITLE := some "\x7bFoo Bar\x7d", YEAR := none, DOI := none, URL := none })
        (.str "@article\x7ba,x\x7d@article\x7bb,y\x7d")
      = [{ title := "Foo Bar", year := "", doi := "", url := "" }] := by
  have h := extractJournalPublication_amended
    (fun e => if e = "@article\x7ba,x\x7d".toList then none
      else some { TITLE := some "\x7bFoo Bar\x7d", YEAR := none, DOI := none, URL := none })
    (.str "@article\x7ba,x\x7d@article\x7bb,y\x7d")
    ("@article\x7ba,x\x7d".toList) ("@article\x7bb,y\x7d".toList)
    { TITLE := some "\x7bFoo Bar\x7d", YEAR := none, DOI := none, URL := none }
    (by decide) (by decide) (by decide)
  rw [h.1]
  decide

/-! ## Well-formed BibTeX entries and the extractor's behaviour on
them (claim C1). -/

/-- Case-insensitive equality of a word with a pattern, character by
character — the `i` flag of the entry-start regex. -/
abbrev ciMatches (w pat : List Char) : Prop :=
  w.length = pat.length ∧ ∀ p ∈ w.zip pat, p.1.toLower = p.2.toLower

/-- The anatomy of a well-formed BibTeX entry occurrence:
`@word ws \x7b key , body`, where `body` runs up to and including the
brace matching the opening one. -/
structure WfEntry where
  word : List Char
  ws : List Char
  key : List Char
  body : List Char

/-- The part of a well-formed entry matched by the start regex. -/
def matchedOf (e : WfEntry) : List Char :=
  '@' :: (e.word ++ e.ws ++ '\x7b' :: (e.key ++ [',']))

/-- The complete text of a well-formed entry, from the `@` marker to
the matching closing brace. -/
def renderEntry (e : WfEntry) : List Char :=
  matchedOf e ++ e.body

/-- Well-formedness of an entry occurrence: the keyword is `article` or
`INPROCEEDINGS` up to case; the gap is whitespace; the key is nonempty
and free of commas, braces, `@` and backticks; the body is free of `@`
and backticks, and its brace balance first closes the already-open
brace exactly at its last character. -/
abbrev EntryOk (e : WfEntry) : Prop :=
  (ciMatches e.word ("article".toList) ∨ ciMatches e.word ("INPROCEEDINGS".toList))
  ∧ (∀ c ∈ e.word, c ≠ '@' ∧ c ≠ '\x60' ∧ c ≠ '\x7b' ∧ c ≠ '\x7d')
  ∧ (∀ c ∈ e.ws, isWs c = true)
  ∧ e.key ≠ []
  ∧ (∀ c ∈ e.key, c ≠ ',' ∧ c ≠ '\x7b' ∧ c ≠ '\x7d' ∧ c ≠ '@' ∧ c ≠ '\x60')
  ∧ (∀ c ∈ e.body, c ≠ '@' ∧ c ≠ '\x60')
  ∧ closesAt e.body 1 = true

/-- Separator text between entries: no `@` (so no entry start can match
inside it) and no backticks (so the preprocessing leaves it alone). -/
abbrev SepOk (sep : List Char) : Prop :=
  ∀ c ∈ sep, c ≠ '@' ∧ c ≠ '\x60'

/-- A document made of separator texts interleaved with well-formed
entries, followed by a trailing text. -/
def renderDoc : List (List Char × WfEntry) → List Char → List Char
  | [], tail => tail
  | (sep, e) :: ps, tail => sep ++ (renderEntry e ++ renderDoc ps tail)

theorem matchWordCI_exact (pat : List Char) :
    ∀ (w r : List Char), w.length = pat.length →
      (∀ p ∈ w.zip pat, p.1.toLower = p.2.toLower) →
      matchWordCI pat (w ++ r) = some (w, r) := by
  induction pat with
  | nil =>
    intro w r hlen _
    rw [List.length_eq_zero.mp hlen]
    rfl
  | cons p pat ih =>
    intro w r hlen hzip
    cases w with
    | nil => simp at hlen
    | cons c w =>
      have hc : c.toLower = p.toLower := by
        apply hzip (c, p)
        rw [List.zip_cons_cons]
        exact List.mem_cons_self _ _
      have hlen2 : w.length = pat.length := by simpa using hlen
      have hzip2 : ∀ q ∈ w.zip pat, q.1.toLower = q.2.toLower := by
        intro q hq
        apply hzip q
        rw [List.zip_cons_cons]
        exact List.mem_cons_of_mem _ hq
      simp only [List.cons_append, matchWordCI, if_pos hc, List.append_eq,
        ih w r hlen2 hzip2]

theorem matchWordCI_head_ne (p : Char) (pat : List Char) (c : Char) (cs : List Char)
    (h : ¬ c.toLower = p.toLower) :
    matchWordCI (p :: pat) (c :: cs) = none := by
  simp [matchWordCI, h]

theorem matchWordCI_shape (pat : List Char) :
    ∀ (s w r : List Char), matchWordCI pat s = some (w, r) → s = w ++ r := by
  induction pat with
  | nil =>
    intro s w r h
    simp only [matchWordCI, Option.some.injEq, Prod.mk.injEq] at h
    rw [← h.1, ← h.2]
    rfl
  | cons p pat ih =>
    intro s w r h
    cases s with
    | nil => simp [matchWordCI] at h
    | cons c cs =>
      rw [matchWordCI] at h
      by_cases hc : c.toLower = p.toLower
      · rw [if_pos hc] at h
        cases hm : matchWordCI pat cs with
        | none => rw [hm] at h; simp at h
        | some pr =>
          obtain ⟨w2, r2⟩ := pr
          rw [hm] at h
          simp only [Option.some.injEq, Prod.mk.injEq] at h
          rw [← h.1, ← h.2, List.cons_append, ← ih cs w2 r2 hm]
      · rw [if_neg hc] at h
        simp at h

theorem matchKind_shape (s w r : List Char) (h : matchKind s = some (w, r)) :
    s = w ++ r := by
  rw [matchKind] at h
  cases ha : matchWordCI "article".toList s with
  | some pr =>
    rw [ha] at h
    simp only [Option.some.injEq] at h
    rw [h] at ha
    exact matchWordCI_shape _ s w r ha
  | none =>
    rw [ha] at h
    exact matchWordCI_shape _ s w r h

theorem takeWhile_append_stop (p : Char → Bool) (ws : List Char) (d : Char) (r : List Char)
    (hws : ∀ c ∈ ws, p c = true) (hd : p d = false) :
    (ws ++ d :: r).takeWhile p = ws ∧ (ws ++ d :: r).dropWhile p = d :: r := by
  induction ws with
  | nil => simp [List.takeWhile_cons, List.dropWhile_cons, hd]
  | cons c ws ih =>
    have hc : p c = true := hws c (List.mem_cons_self _ _)
    have ih2 := ih (fun x hx => hws x (List.mem_cons_of_mem _ hx))
    simp [List.takeWhile_cons, List.dropWhile_cons, hc, ih2.1, ih2.2]

theorem tryMatchAt_not_at (c : Char) (cs : List Char) (h : c ≠ '@') :
    tryMatchAt (c :: cs) = none := by
  rw [tryMatchAt, if_neg h]

theorem braceScan_closes (body : List Char) :
    ∀ (n : Nat) (acc rest : List Char), closesAt body n = true →
      braceScan (body ++ rest) n acc = some (acc ++ body) := by
  induction body with
  | nil =>
    intro n acc rest h
    simp [closesAt] at h
  | cons c cs ih =>
    intro n acc rest h
    rw [closesAt] at h
    by_cases h0 : braceStep n c = 0
    · rw [if_pos h0] at h
      have hcs : cs = [] := by simpa using h
      subst hcs
      simp only [List.cons_append, List.nil_append, braceScan]
      rw [if_pos h0]
    · rw [if_neg h0] at h
      simp only [List.cons_append, braceScan, List.append_eq]
      rw [if_neg h0, ih (braceStep n c) (acc ++ [c]) rest h]
      simp

theorem closesAt_count (l : List Char) :
    ∀ n : Nat, n ≠ 0 → closesAt l n = true →
      l.count '\x7d' = l.count '\x7b' + n := by
  induction l with
  | nil =>
    intro n h0 h
    simp [closesAt] at h
  | cons c cs ih =>
    intro n h0 h
    rw [closesAt] at h
    by_cases hb : braceStep n c = 0
    · rw [if_pos hb] at h
      have hcs : cs = [] := by simpa using h
      subst hcs
      unfold braceStep at hb
      by_cases hc1 : c = '\x7b'
      · rw [if_pos hc1] at hb; omega
      · rw [if_neg hc1] at hb
        by_cases hc2 : c = '\x7d'
        · rw [if_pos hc2] at hb
          subst hc2
          have hn1 : n = 1 := by omega
          subst hn1
          simp [List.count_cons, List.count_nil]
        · rw [if_neg hc2] at hb
          omega
    · rw [if_neg hb] at h
      have ihr := ih (braceStep n c) hb h
      by_cases hc1 : c = '\x7b'
      · subst hc1
        have he : braceStep n '\x7b' = n + 1 := by simp [braceStep]
        rw [he] at ihr
        simp [List.count_cons]
        omega
      · by_cases hc2 : c = '\x7d'
        · subst hc2
          have he : braceStep n '\x7d' = n - 1 := by simp [braceStep]
          rw [he] at ihr
          simp [List.count_cons]
          omega
        · have he : braceStep n c = n := by simp [braceStep, hc1, hc2]
          rw [he] at ihr
          simp [List.count_cons, hc1, hc2]
          omega

theorem tryMatchAt_render (e : WfEntry) (rest : List Char) (he : EntryOk e) :
    tryMatchAt (renderEntry e ++ rest) = some (matchedOf e, e.body ++ rest) := by
  obtain ⟨hword, _, hws, hkeyne, hkeyc, _, _⟩ := he
  have hshape : renderEntry e ++ rest =
      '@' :: (e.word ++ (e.ws ++ ('\x7b' :: (e.key ++ (',' :: (e.body ++ rest)))))) := by
    simp [renderEntry, matchedOf]
  have hkind : matchKind (e.word ++ (e.ws ++ ('\x7b' :: (e.key ++ (',' :: (e.body ++ rest))))))
      = some (e.word, e.ws ++ ('\x7b' :: (e.key ++ (',' :: (e.body ++ rest))))) := by
    rcases hword with ha | hi
    · rw [matchKind, matchWordCI_exact _ _ _ ha.1 ha.2]
    · obtain ⟨hlen, hzip⟩ := hi
      have hfail : matchWordCI ("article".toList)
          (e.word ++ (e.ws ++ ('\x7b' :: (e.key ++ (',' :: (e.body ++ rest)))))) = none := by
        cases hw : e.word with
        | nil => exfalso; rw [hw] at hlen; simp at hlen
        | cons c w =>
          have hmem : (c, 'I') ∈ e.word.zip ("INPROCEEDINGS".toList) := by
            rw [hw, show ("INPROCEEDINGS".toList) = 'I' :: "NPROCEEDINGS".toList from rfl,
              List.zip_cons_cons]
            exact List.mem_cons_self _ _
          have hc : c.toLower = 'i' := by simpa using hzip _ hmem
          have hca : ¬ c.toLower = 'a'.toLower := by
            rw [hc]; decide
          rw [List.cons_append,
            show ("article".toList) = 'a' :: "rticle".toList from rfl]
          exact matchWordCI_head_ne 'a' ("rticle".toList) c _ hca
      rw [matchKind, hfail, matchWordCI_exact _ _ _ hlen hzip]
  have hwsStop := takeWhile_append_stop isWs e.ws '\x7b'
      (e.key ++ (',' :: (e.body ++ rest))) hws (by decide)
  have hkeyStop := takeWhile_append_stop (fun d => decide (d ≠ ',')) e.key ','
      (e.body ++ rest) (fun c hc => decide_eq_true (hkeyc c hc).1) (by decide)
  rw [hshape, tryMatchAt, if_pos rfl]
  simp only [hkind, hwsStop.1, hwsStop.2, hkeyStop.1, hkeyStop.2, if_neg hkeyne]
  rfl

theorem tryMatchAt_shape (s m after : List Char) (h : tryMatchAt s = some (m, after)) :
    s = m ++ after ∧ m ≠ [] := by
  cases s with
  | nil => simp [tryMatchAt] at h
  | cons c cs =>
    rw [tryMatchAt] at h
    split at h
    · rename_i hc
      split at h
      · rename_i w rest2 heq1
        split at h
        · rename_i rest4 heq2
          split at h
          · rename_i rest6 heq3
            split at h
            · exact absurd h (by simp)
            · rw [Option.some.injEq, Prod.mk.injEq] at h
              obtain ⟨hm, hafter⟩ := h
              subst hc hm hafter
              refine ⟨?_, by simp⟩
              have hcs : cs = w ++ rest2 := matchKind_shape cs w rest2 heq1
              set tk := rest2.takeWhile isWs with htk
              set tk2 := rest4.takeWhile (fun d => decide (d ≠ ',')) with htk2
              have h2 : tk ++ ('\x7b' :: rest4) = rest2 := by
                rw [htk, ← heq2]
                exact List.takeWhile_append_dropWhile _ _
              have h3 : tk2 ++ (',' :: rest6) = rest4 := by
                rw [htk2, ← heq3]
                exact List.takeWhile_append_dropWhile _ _
              rw [hcs, ← h2, ← h3]
              simp
          · exact absurd h (by simp)
        · exact absurd h (by simp)
      · exact absurd h (by simp)
    · exact absurd h (by simp)

theorem extractLoop_fuel (f : Nat) :
    ∀ (g : Nat) (s : List Char), s.length ≤ f → s.length ≤ g →
      extractLoop f s = extractLoop g s := by
  induction f with
  | zero =>
    intro g s hf _
    have hs : s = [] := List.length_eq_zero.mp (Nat.le_zero.mp hf)
    subst hs
    cases g <;> rfl
  | succ f ih =>
    intro g s hf hg
    cases s with
    | nil => cases g <;> rfl
    | cons c cs =>
      cases g with
      | zero => simp at hg
      | succ g =>
        obtain hm | ⟨⟨m, after⟩, hm⟩ :
            tryMatchAt (c :: cs) = none ∨ ∃ pr, tryMatchAt (c :: cs) = some pr := by
          cases tryMatchAt (c :: cs) with
          | none => exact Or.inl rfl
          | some pr => exact Or.inr ⟨pr, rfl⟩
        · simp only [extractLoop, hm]
          have h1 : cs.length ≤ f := by simp at hf; omega
          have h2 : cs.length ≤ g := by simp at hg; omega
          exact ih g cs h1 h2
        · obtain ⟨hs, hm0⟩ := tryMatchAt_shape (c :: cs) m after hm
          have hm1 : 1 ≤ m.length := by
            cases m with
            | nil => exact absurd rfl hm0
            | cons a as => simp
          have hlen : m.length + after.length = cs.length + 1 := by
            have hls := congrArg List.length hs
            simp [List.length_append] at hls
            omega
          have h1 : after.length ≤ f := by simp at hf; omega
          have h2 : after.length ≤ g := by simp at hg; omega
          simp only [extractLoop, hm]
          rw [ih g after h1 h2]

theorem extractLoop_skip (pre : List Char) :
    ∀ (f : Nat) (s : List Char), (∀ c ∈ pre, c ≠ '@') →
      (pre ++ s).length ≤ f →
      extractLoop f (pre ++ s) = extractEntriesCore s := by
  induction pre with
  | nil =>
    intro f s _ hf
    exact extractLoop_fuel f s.length s (by simpa using hf) le_rfl
  | cons c pre ih =>
    intro f s hpre hf
    have hc : c ≠ '@' := hpre c (List.mem_cons_self _ _)
    cases f with
    | zero => simp at hf
    | succ f =>
      simp only [List.cons_append, extractLoop, tryMatchAt_not_at c _ hc]
      exact ih f s (fun x hx => hpre x (List.mem_cons_of_mem _ hx))
        (by simp at hf ⊢; omega)

theorem extractCore_skip (pre s : List Char) (h : ∀ c ∈ pre, c ≠ '@') :
    extractEntriesCore (pre ++ s) = extractEntriesCore s := by
  rw [extractEntriesCore]
  exact extractLoop_skip pre _ s h le_rfl

theorem extractCore_entry (e : WfEntry) (rest : List Char) (he : EntryOk e) :
    extractEntriesCore (renderEntry e ++ rest) = renderEntry e :: extractEntriesCore rest := by
  have hbodyAt : ∀ c ∈ e.body, c ≠ '@' := fun c hc => (he.2.2.2.2.2.1 c hc).1
  have hclose : closesAt e.body 1 = true := he.2.2.2.2.2.2
  have hmatch := tryMatchAt_render e rest he
  have hshape : renderEntry e ++ rest =
      '@' :: (e.word ++ (e.ws ++ ('\x7b' :: (e.key ++ (',' :: (e.body ++ rest)))))) := by
    simp [renderEntry, matchedOf]
  rw [hshape] at hmatch
  rw [extractEntriesCore, hshape]
  have hskip := extractLoop_skip e.body
      (e.word ++ (e.ws ++ ('\x7b' :: (e.key ++ (',' :: (e.body ++ rest)))))).length rest
      hbodyAt (by simp [List.length_append]; omega)
  simp only [List.length_cons, extractLoop, hmatch,
    braceScan_closes e.body 1 (matchedOf e) rest hclose, hskip]
  rfl

theorem extractCore_renderDoc (ps : List (List Char × WfEntry)) (tail : List Char)
    (hps : ∀ p ∈ ps, SepOk p.1 ∧ EntryOk p.2)
    (htail : extractEntriesCore tail = []) :
    extractEntriesCore (renderDoc ps tail) = ps.map (fun p => renderEntry p.2) := by
  induction ps with
  | nil => exact htail
  | cons p ps ih =>
    obtain ⟨sep, e⟩ := p
    obtain ⟨hsep, he⟩ := hps _ (List.mem_cons_self _ _)
    have hih := ih (fun q hq => hps q (List.mem_cons_of_mem _ hq))
    show extractEntriesCore (sep ++ (renderEntry e ++ renderDoc ps tail)) = _
    rw [extractCore_skip sep _ (fun c hc => (hsep c hc).1),
      extractCore_entry e _ he, hih]
    rfl

theorem renderEntry_noTick (e : WfEntry) (he : EntryOk e) :
    ∀ c ∈ renderEntry e, c ≠ '\x60' := by
  obtain ⟨_, hwordc, hws, _, hkeyc, hbody, _⟩ := he
  intro c hc hEq
  subst hEq
  simp only [renderEntry, matchedOf, List.mem_append, List.mem_cons,
    List.mem_singleton] at hc
  rcases hc with (hc | (hc | hc) | hc | hc | hc) | hc
  · exact absurd hc (by decide)
  · exact (hwordc _ hc).2.1 rfl
  · exact absurd (hws _ hc) (by decide)
  · exact absurd hc (by decide)
  · exact (hkeyc _ hc).2.2.2.2 rfl
  · exact absurd hc (by decide)
  · exact (hbody _ hc).2 rfl

theorem renderDoc_noTick (ps : List (List Char × WfEntry)) (tail : List Char)
    (hps : ∀ p ∈ ps, SepOk p.1 ∧ EntryOk p.2)
    (htail : ∀ c ∈ tail, c ≠ '\x60') :
    ∀ c ∈ renderDoc ps tail, c ≠ '\x60' := by
  induction ps with
  | nil => exact htail
  | cons p ps ih =>
    obtain ⟨sep, e⟩ := p
    obtain ⟨hsep, he⟩ := hps _ (List.mem_cons_self _ _)
    intro c hc
    simp only [renderDoc, List.mem_append] at hc
    rcases hc with hc | hc | hc
    · exact (hsep c hc).2
    · exact renderEntry_noTick e he c hc
    · exact ih (fun q hq => hps q (List.mem_cons_of_mem _ hq)) c hc

theorem filter_noTick (l : List Char) (h : ∀ c ∈ l, c ≠ '\x60') :
    l.filter (fun c => decide (c ≠ '\x60')) = l :=
  List.filter_eq_self.mpr (fun a ha => decide_eq_true (h a ha))

theorem renderEntry_balanced (e : WfEntry) (he : EntryOk e) :
    (renderEntry e).count '\x7b' = (renderEntry e).count '\x7d' := by
  obtain ⟨_, hwordc, hws, _, hkeyc, _, hclose⟩ := he
  have hword1 : e.word.count '\x7b' = 0 :=
    List.count_eq_zero.mpr (fun hmem => (hwordc _ hmem).2.2.1 rfl)
  have hword2 : e.word.count '\x7d' = 0 :=
    List.count_eq_zero.mpr (fun hmem => (hwordc _ hmem).2.2.2 rfl)
  have hws1 : e.ws.count '\x7b' = 0 :=
    List.count_eq_zero.mpr (fun hmem => absurd (hws _ hmem) (by decide))
  have hws2 : e.ws.count '\x7d' = 0 :=
    List.count_eq_zero.mpr (fun hmem => absurd (hws _ hmem) (by decide))
  have hkey1 : e.key.count '\x7b' = 0 :=
    List.count_eq_zero.mpr (fun hmem => (hkeyc _ hmem).2.1 rfl)
  have hkey2 : e.key.count '\x7d' = 0 :=
    List.count_eq_zero.mpr (fun hmem => (hkeyc _ hmem).2.2.1 rfl)
  have hbody := closesAt_count e.body 1 (by omega) hclose
  simp [renderEntry, matchedOf, List.count_append, List.count_cons,
    hword1, hword2, hws1, hws2, hkey1, hkey2]
  omega

/-- C1: on any text consisting of well-formed `@article` /
`@inproceedings` entries (balanced braces, closing exactly at the
entry's last character) separated by `@`-free, backtick-free text and
followed by a trailing text from which the scan extracts nothing (for
instance a truncated entry whose braces never balance before the end of
input, which is silently dropped), `extractBibTeXEntries` returns
exactly the N complete entry substrings, in document order, each
running from its `@` marker to the matching closing brace — and every
returned string is brace-balanced. -/
theorem extractBibTeXEntries_wellformed (ps : List (List Char × WfEntry)) (tail : List Char)
    (hps : ∀ p ∈ ps, SepOk p.1 ∧ EntryOk p.2)
    (htick : ∀ c ∈ tail, c ≠ '\x60')
    (hdrop : extractEntriesCore tail = []) :
    extractBibTeXEntries (.str (String.mk (renderDoc ps tail)))
      = ps.map (fun p => renderEntry p.2)
    ∧ ∀ s ∈ extractBibTeXEntries (.str (String.mk (renderDoc ps tail))),
        s.count '\x7b' = s.count '\x7d' := by
  have hnt : ∀ c ∈ renderDoc ps tail, c ≠ '\x60' := renderDoc_noTick ps tail hps htick
  have hmain : extractBibTeXEntries (.str (String.mk (renderDoc ps tail)))
      = ps.map fun p => renderEntry p.2 := by
    rw [extractBibTeXEntries]
    have hj : (jsString (.str (String.mk (renderDoc ps tail)))).toList
        = renderDoc ps tail := rfl
    rw [hj, filter_noTick _ hnt]
    exact extractCore_renderDoc ps tail hps hdrop
  refine ⟨hmain, ?_⟩
  rw [hmain]
  intro s hs
  rw [List.mem_map] at hs
  obtain ⟨p, hp, hpe⟩ := hs
  rw [← hpe]
  exact renderEntry_balanced p.2 (hps p hp).2

/-- A concrete two-entry document for the C1 witness: an `@article`
entry, a separator, an `@INPROCEEDINGS` entry with nested braces. -/
def c1Doc : List (List Char × WfEntry) :=
  [([], { word := "article".toList, ws := [], key := ['k'], body := "x\x7d".toList }),
   (" and ".toList,
    { word := "INPROCEEDINGS".toList, ws := [' '], key := "k2".toList
      body := "t = \x7bT\x7d\x7d".toList })]

/-- The trailing text for the C1 witness: a truncated entry whose
braces never balance, which the extractor must drop. -/
def c1Tail : List Char := " @article\x7by, \x7bunclosed".toList

/-- Witness for C1: on the concrete document the extractor returns
exactly the two complete entries and drops the trailing truncated
one. -/
theorem extractBibTeXEntries_wellformed_witness :
    extractBibTeXEntries (.str (String.mk (renderDoc c1Doc c1Tail)))
      = c1Doc.map (fun p => renderEntry p.2)
    ∧ (c1Doc.map fun p => renderEntry p.2)
      = ["@article\x7bk,x\x7d".toList, "@INPROCEEDINGS \x7bk2,t = \x7bT\x7d\x7d".toList]
    ∧ extractEntriesCore c1Tail = [] := by
  have h := extractBibTeXEntries_wellformed c1Doc c1Tail (by decide) (by decide) (by decide)
  exact ⟨h.1, by decide, by decide⟩

end GhMeta
